import Mathlib

/-
Verification of the Token Reference Resolution & Validation Engine of
`scripts/validate-tokens.js` (StarterKit design-token validator).

The JavaScript program is shallowly embedded: JS strings become `List Char`,
JS objects become field lists of string-keyed JS values in insertion order,
and the one piece of mutable global state that the reference grammar carries
(the `lastIndex` slot of the global regex `TOKEN_REFERENCE_REGEX`, declared
with the `/g` flag) is threaded explicitly as a `Nat`.

JS property access `obj[k]` consults the prototype chain when `k` is not an
own property; this is modelled by `getProp`, which falls back to a table of
`Object.prototype` member names.  Property writes are modelled functionally
(no aliasing): the embedding is faithful for all executions in which no
registered record object is later mutated in place through a second alias,
which holds for every execution examined in the theorems below.
-/

/-- JS strings are modelled as lists of characters. -/
abbrev Str := List Char

mutual
/-- A JavaScript runtime value, as far as the validator script needs:
strings, numbers, booleans, `null`, plain objects (field lists in insertion
order), arrays (whose elements the script never inspects, it only checks
`Array.isArray`), and host function objects such as the `Object.prototype`
methods reachable through the prototype chain. -/
inductive JsValue where
  | vStr (s : Str)
  | vNum (n : Int)
  | vBool (b : Bool)
  | vNull
  | vArr
  | vFun (name : Str)
  | vObj (fields : JsFields)

/-- Fields of a plain JS object: string keys in insertion order. -/
inductive JsFields where
  | nil
  | cons (k : Str) (v : JsValue) (rest : JsFields)
end

open JsValue JsFields

/-- Convenience constructor for object field lists. -/
def ofList : List (Str × JsValue) → JsFields
  | [] => nil
  | (k, v) :: rest => cons k v (ofList rest)

/-- Member names every plain JS object inherits from `Object.prototype`.
Reading one of these on an object with no own property of that name yields
a (truthy) host function, not `undefined`. -/
def protoProps : List Str :=
  [("toString".toList), ("toLocaleString".toList), ("valueOf".toList),
   ("hasOwnProperty".toList), ("isPrototypeOf".toList),
   ("propertyIsEnumerable".toList), ("constructor".toList),
   ("__proto__".toList), ("__defineGetter__".toList),
   ("__defineSetter__".toList), ("__lookupGetter__".toList),
   ("__lookupSetter__".toList)]

/-- Member names a JS function object exposes (approximated; `length` and
`name` are not functions in JS, but the script only ever uses such values
for truthiness tests, for which the approximation agrees). -/
def funProps : List Str :=
  [("call".toList), ("apply".toList), ("bind".toList),
   ("length".toList), ("name".toList)] ++ protoProps

/-- Member names a JS string primitive exposes through boxing (approximated;
numeric index access is not modelled, it is never reached in the theorems
below). -/
def strProps : List Str :=
  [("charAt".toList), ("charCodeAt".toList), ("indexOf".toList),
   ("slice".toList), ("split".toList), ("includes".toList),
   ("startsWith".toList), ("endsWith".toList)] ++ protoProps

/-- Own-property lookup of a JS object: first binding of the key in the
field list, `undefined` (`none`) otherwise. -/
def getOwn : JsFields → Str → Option JsValue
  | nil, _ => none
  | cons k v rest, key => if k = key then some v else getOwn rest key

/-- Own-property write `obj[k] = v`: replaces the first binding in place or
appends a new binding (JS insertion order for non-index string keys). -/
def setOwn : JsFields → Str → JsValue → JsFields
  | nil, key, v => cons key v nil
  | cons k w rest, key, v =>
      if k = key then cons k v rest else cons k w (setOwn rest key v)

/-- JS property read `x[k]`, including the prototype-chain fallback for
plain objects, functions, strings and arrays.  Reading a property of `null`
throws in JS; that case is unreachable in every execution modelled here and
is rendered as `none`. -/
def getProp : JsValue → Str → Option JsValue
  | vObj fs, k =>
      match getOwn fs k with
      | some v => some v
      | none => if k ∈ protoProps then some (vFun k) else none
  | vFun _, k => if k ∈ funProps then some (vFun k) else none
  | vStr s, k =>
      if k = ("length".toList) then some (vNum s.length)
      else if k ∈ strProps then some (vFun k) else none
  | vArr, k =>
      if k = ("length".toList) then some (vNum 0)
      else if k ∈ protoProps then some (vFun k) else none
  | vNum _, k => if k ∈ protoProps then some (vFun k) else none
  | vBool _, k => if k ∈ protoProps then some (vFun k) else none
  | vNull, _ => none

/-- JS truthiness of a value. -/
def truthyV : JsValue → Bool
  | vStr s => !s.isEmpty
  | vNum n => decide (n ≠ 0)
  | vBool b => b
  | vNull => false
  | vArr => true
  | vFun _ => true
  | vObj _ => true

/-- JS truthiness of a property-read result (`undefined` is falsy). -/
def truthyO : Option JsValue → Bool
  | none => false
  | some v => truthyV v

/-- JS `typeof x === 'object'` (true for plain objects, arrays and `null`). -/
def isObjTypeO : Option JsValue → Bool
  | some (vObj _) => true
  | some vArr => true
  | some vNull => true
  | _ => false

/-
Reference grammar (source lines 68-69 and 115-168).

`TOKEN_REFERENCE_REGEX` is the global regex `/\{([^{}]+)\}/g`: a literal
opening brace, a non-empty maximal run of characters that are neither brace,
and a literal closing brace.  Because it carries the `/g` flag, its
`lastIndex` slot persists between calls: `test` starts searching at
`lastIndex`, sets it to the match end on success, and resets it to `0` on
failure.  `exec` behaves the same way, which is what the extraction loop in
`extractAllTokenReferences` relies on.
-/

/-- Core matcher for `/\{([^{}]+)\}/` scanning the remaining input.  The
accumulator is `none` while outside a candidate match and `some acc` (the
reversed group characters so far) right after an opening brace.  Returns the
absolute index just past the first complete match, `i` being the absolute
index of the current head. -/
def findRefEnd : Str → Nat → Option Str → Option Nat
  | [], _, _ => none
  | '{' :: r, i, _ => findRefEnd r (i + 1) (some [])
  | '}' :: r, i, some [] => findRefEnd r (i + 1) none
  | '}' :: _, i, some (_ :: _) => some (i + 1)
  | c :: r, i, some acc => findRefEnd r (i + 1) (some (c :: acc))
  | _ :: r, i, none => findRefEnd r (i + 1) none

/-- One call of `TOKEN_REFERENCE_REGEX.test(s)` under `lastIndex` state
`li`: search from `li`; on success return `true` and the new `lastIndex`
(the match end), on failure return `false` and reset `lastIndex` to `0`. -/
def testRef (s : Str) (li : Nat) : Bool × Nat :=
  match findRefEnd (s.drop li) li none with
  | some e => (true, e)
  | none => (false, 0)

/-- All capture groups of `/\{([^{}]+)\}/g` over the whole string, left to
right (the loop body of `extractAllTokenReferences`, which first resets
`lastIndex` to `0`). -/
def extractRefsAux : Str → Option Str → List Str
  | [], _ => []
  | '{' :: r, _ => extractRefsAux r (some [])
  | '}' :: r, some [] => extractRefsAux r none
  | '}' :: r, some acc => acc.reverse :: extractRefsAux r none
  | c :: r, some acc => extractRefsAux r (some (c :: acc))
  | _ :: r, none => extractRefsAux r none

/-- All reference names occurring in a string, left to right. -/
def extractRefs (s : Str) : List Str := extractRefsAux s none

/-- JS `value.slice(1, -1)`: the string without its first and last
character. -/
def sliceInner (s : Str) : Str := (s.drop 1).dropLast

/-- Source `isSimpleTokenReference` (lines 115-118): non-strings are not
references; a string is a simple reference iff it starts with an opening
brace, ends with a closing brace, and its interior contains no opening
brace. -/
def isSimpleTokenReference : JsValue → Bool
  | vStr s =>
      decide (s.head? = some '{') && decide (s.getLast? = some '}') &&
        !(sliceInner s).contains '{'
  | _ => false

/-- Source `containsTokenReferences` (lines 125-128): non-strings return
`false` without touching the regex; strings run the stateful `test`. -/
def containsTokenReferences : JsValue → Nat → Bool × Nat
  | vStr s, li => testRef s li
  | _, li => (false, li)

/-- Source `isExpression` (lines 135-138): the regex `/[+\-*\/]/` has no
`/g` flag, so it is stateless. -/
def isExpression : JsValue → Bool
  | vStr s => s.any (fun c => c = '+' || c = '-' || c = '*' || c = '/')
  | _ => false

/-- Source `extractAllTokenReferences` (lines 145-159): non-strings return
`[]` before the `lastIndex` reset; strings reset `lastIndex`, collect every
match, and end with `lastIndex = 0` (the final failing `exec` resets it). -/
def extractAllTokenReferences : JsValue → Nat → List Str × Nat
  | vStr s, _ => (extractRefs s, 0)
  | _, li => ([], li)

/-- Source `extractTokenName` (lines 166-168): strips the enclosing braces
with `slice(1, -1)`. -/
def extractTokenName (reference : Str) : Str := sliceInner reference

/-- JS `tokenName.split('.')` on character lists (splitting on every dot;
an empty string yields one empty segment, like in JS). -/
def splitDotAux : Str → Str → List Str
  | [], acc => [acc.reverse]
  | '.' :: r, acc => acc.reverse :: splitDotAux r []
  | c :: r, acc => splitDotAux r (c :: acc)

/-- JS `s.split('.')`. -/
def splitDot (s : Str) : List Str := splitDotAux s []

/-- Key of the `value` field of a token record. -/
def valueKey : Str := "value".toList

/-- Key of the `type` field of a token record. -/
def typeKey : Str := "type".toList

/-- Source `VALID_TOKEN_TYPES` (lines 32-65). -/
def VALID_TOKEN_TYPES : List Str :=
  [("color".toList), ("number".toList), ("string".toList),
   ("dimension".toList), ("fontFamily".toList), ("fontWeight".toList),
   ("fontSize".toList), ("letterSpacing".toList), ("lineHeight".toList),
   ("paragraphSpacing".toList), ("textCase".toList),
   ("textDecoration".toList), ("other".toList), ("boxShadow".toList),
   ("text".toList), ("composition".toList), ("border".toList),
   ("shadow".toList), ("asset".toList), ("typography".toList),
   ("opacity".toList), ("boolean".toList), ("spacing".toList),
   ("sizing".toList), ("radius".toList), ("stroke".toList),
   ("effect".toList), ("media".toList), ("layout".toList)]

/-- Stepwise descent loop of `tokenExists` (source lines 189-197): walk the
path segments through the registry with plain JS property reads, failing on
the first falsy step. -/
def stepAll : JsValue → List Str → Bool
  | _, [] => true
  | cur, p :: r =>
      match getProp cur p with
      | some v => if truthyV v then stepAll v r else false
      | none => false

/-- Source `tokenExists` (lines 175-198).  First the stateful
`containsTokenReferences` call (names with nested braces are presumed
resolvable), then the flat truthiness probe `tokenRegistry[tokenName]`
(which, being a plain property read, also hits `Object.prototype`
members), then the stepwise walk over the dot-separated segments. -/
def tokenExists (reg : JsFields) (tokenName : Str) (li : Nat) : Bool × Nat :=
  let tc := containsTokenReferences (vStr tokenName) li
  if tc.1 then (true, tc.2)
  else if truthyO (getProp (vObj reg) tokenName) then (true, tc.2)
  else (stepAll (vObj reg) (splitDot tokenName), tc.2)

/-- Hierarchical half of token registration (source lines 217-235): walk the
path segments through the registry, creating empty group objects for absent
segments, and write the token at the last segment unless a record carrying a
`value` field is already there.  Reads go through `getProp` (so a prototype
member makes an intermediate step truthy); writes that JS would direct at a
shared host object (prototype members, arrays, boxed primitives) do not
change the registry's own structure and are modelled as leaving it
unchanged. -/
def hierInsert (fs : JsFields) (parts : List Str) (value : JsValue) : JsFields :=
  match parts with
  | [] => fs
  | [p] =>
      let ex := getProp (vObj fs) p
      if !truthyO ex || !isObjTypeO ex ||
          (match ex with
           | some v => (getProp v valueKey).isNone
           | none => true) then
        setOwn fs p value
      else fs
  | p :: rest =>
      match getOwn fs p with
      | some (vObj gs) => setOwn fs p (vObj (hierInsert gs rest value))
      | some w => if truthyV w then fs else setOwn fs p (vObj (hierInsert nil rest value))
      | none =>
          if p ∈ protoProps then fs
          else setOwn fs p (vObj (hierInsert nil rest value))

/-- Registration of a single leaf token (source lines 211-235): the flat
write `tokenRegistry[tokenPath] = value` happens first, then the
hierarchical walk runs over the updated registry object. -/
def registerLeaf (reg : JsFields) (tokenPath : Str) (value : JsValue) : JsFields :=
  hierInsert (setOwn reg tokenPath value) (splitDot tokenPath) value

/-- Source line 208: dotted-path extension, the empty prefix being falsy. -/
def joinKey (pref k : Str) : Str := if pref.isEmpty then k else pref ++ '.' :: k

/-- Recursive body of `registerTokens` (source lines 206-242): an entry is
walked only when it is a truthy non-array object; it is a token when both
`value` and `type` are defined, otherwise it is a group to recurse into. -/
def registerFields : JsFields → Str → JsFields → JsFields
  | nil, _, reg => reg
  | cons k (vObj gs) rest, pref, reg =>
      let tokenPath := joinKey pref k
      let reg' :=
        if (getProp (vObj gs) valueKey).isSome && (getProp (vObj gs) typeKey).isSome then
          registerLeaf reg tokenPath (vObj gs)
        else registerFields gs tokenPath reg
      registerFields rest pref reg'
  | cons _ _ rest, pref, reg => registerFields rest pref reg

/-- Source `registerTokens` (lines 205-245).  `Object.entries` of a
non-object yields nothing to register. -/
def registerTokens (tokens : JsValue) (reg : JsFields) : JsFields :=
  match tokens with
  | vObj fs => registerFields fs [] reg
  | _ => reg

/-- Structured form of the error and warning messages `validateToken`
pushes (source lines 262, 266, 268, 280, 297). -/
inductive Finding where
  | missingValue (tokenPath : Str)
  | missingType (tokenPath : Str)
  | unknownType (tokenPath : Str) (ty : JsValue)
  | unresolvedRef (tokenPath : Str) (ref : Str)

/-- Reference loop of `validateToken` (source lines 287-300): references
that themselves contain braces are presumed valid; a missing reference is an
error only when the whole token value is not an expression. -/
def checkRefs (tokenPath : Str) (tokenValue : JsValue) (reg : JsFields) :
    List Str → Nat → List Finding × Nat
  | [], li => ([], li)
  | ref :: rest, li =>
      let c := containsTokenReferences (vStr ref) li
      if c.1 then checkRefs tokenPath tokenValue reg rest c.2
      else
        let te := tokenExists reg ref c.2
        if te.1 then checkRefs tokenPath tokenValue reg rest te.2
        else if isExpression tokenValue then checkRefs tokenPath tokenValue reg rest te.2
        else
          let r := checkRefs tokenPath tokenValue reg rest te.2
          (Finding.unresolvedRef tokenPath ref :: r.1, r.2)

/-- Source `validateToken` (lines 254-307), returning the pushed errors, the
pushed warnings, and the regex `lastIndex` left behind.  The stats counter
updates are elided (they do not feed back into any finding). -/
def validateToken (tokenPath : Str) (token : JsValue) (reg : JsFields) (li : Nat) :
    List Finding × List Finding × Nat :=
  let tv := getProp token valueKey
  let tt := getProp token typeKey
  let errsA : List Finding := if tv.isNone then [Finding.missingValue tokenPath] else []
  let errsB : List Finding := if tt.isNone then [Finding.missingType tokenPath] else []
  let warnsA : List Finding :=
    match tt with
    | none => []
    | some ty =>
        if (match ty with | vStr s => decide (s ∈ VALID_TOKEN_TYPES) | _ => false) then []
        else [Finding.unknownType tokenPath ty]
  match tv with
  | none => (errsA ++ errsB, warnsA, li)
  | some v =>
      if isSimpleTokenReference v then
        let refName := extractTokenName (match v with | vStr s => s | _ => [])
        let te := tokenExists reg refName li
        let errsC := if te.1 then ([] : List Finding)
                     else [Finding.unresolvedRef tokenPath refName]
        (errsA ++ errsB ++ errsC, warnsA, te.2)
      else
        let c := containsTokenReferences v li
        if c.1 then
          let ex := extractAllTokenReferences v c.2
          let r := checkRefs tokenPath v reg ex.1 ex.2
          (errsA ++ errsB ++ r.1, warnsA, r.2)
        else (errsA ++ errsB, warnsA, c.2)

/-- Recursive body of `validateNestedTokens` (source lines 336-353): a
truthy non-array object is validated as a token exactly when both `value`
and `type` are defined, and otherwise recursed into as a group — a record
carrying only one of the two fields is therefore walked as a group, not
reported. -/
def validateFields : JsFields → Str → JsFields → Nat →
    List Finding × List Finding × Nat
  | nil, _, _, li => ([], [], li)
  | cons k (vObj gs) rest, pref, reg, li =>
      let tokenPath := joinKey pref k
      let hd :=
        if (getProp (vObj gs) valueKey).isSome && (getProp (vObj gs) typeKey).isSome then
          validateToken tokenPath (vObj gs) reg li
        else validateFields gs tokenPath reg li
      let tl := validateFields rest pref reg hd.2.2
      (hd.1 ++ tl.1, hd.2.1 ++ tl.2.1, tl.2.2)
  | cons _ _ rest, pref, reg, li => validateFields rest pref reg li

/-- Source `validateTokenFile` (lines 314-362) for an already-parsed token
tree: register the file's tokens, then validate every leaf against the
updated registry.  Returns the findings and the updated registry. -/
def validateTokenFile (tokens : JsValue) (reg : JsFields) (li : Nat) :
    (List Finding × List Finding × Nat) × JsFields :=
  let reg' := registerTokens tokens reg
  match tokens with
  | vObj fs => (validateFields fs [] reg' li, reg')
  | _ => (([], [], li), reg')

/-- Flat view of the Registry (source line 184): the full dotted path read
as one property of the registry object. -/
def flatLookup (reg : JsFields) (tokenPath : Str) : Option JsValue :=
  getProp (vObj reg) tokenPath

/-- Value-returning form of the stepwise registry view (source lines
189-197): descend segment by segment with plain property reads, failing on
the first falsy step. -/
def stepLookupV : JsValue → List Str → Option JsValue
  | cur, [] => some cur
  | cur, p :: r =>
      match getProp cur p with
      | some v => if truthyV v then stepLookupV v r else none
      | none => none

/-- Stepwise view of the Registry at a segment list. -/
def stepLookup (reg : JsFields) (parts : List Str) : Option JsValue :=
  stepLookupV (vObj reg) parts

/-
The Resolver (spec section 4.4).  No Resolver exists under `src/` — the
script's `tokenExists` only answers existence queries and never substitutes
— so the component is modelled from the specification's words here.
-/

/-- Result of the spec Resolver: a resolved scalar string or the
"unresolved" sentinel (spec section 4.4: never an exception). -/
inductive ResolveResult where
  | resolved (s : Str)
  | unresolved
deriving DecidableEq

/-- Modelled from the spec: stepwise descent through nested Groups used by
the registry `lookup(path)` contract of spec section 4.3. -/
def specDescend : JsValue → List Str → Option JsValue
  | v, [] => some v
  | vObj fs, p :: r =>
      match getOwn fs p with
      | some w => specDescend w r
      | none => none
  | _, _ :: _ => none

/-- Modelled from the spec: `lookup(path)` of spec section 4.3 — a lookup
succeeds via either the flat full-path key or a stepwise walk through
nested groups. -/
def specLookup (reg : JsFields) (name : Str) : Option JsValue :=
  match getOwn reg name with
  | some v => some v
  | none => specDescend (vObj reg) (splitDot name)

/-- Modelled from the spec: a scalar rendered back into a value string
during substitution. -/
def scalarStr : JsValue → Option Str
  | vStr s => some s
  | vNum n => some (toString n).toList
  | vBool b => some (if b then ("true".toList) else ("false".toList))
  | _ => none

/-- Modelled from the spec: section 4.4 step 3 — the replacement text for a
resolvable span: the registry's value, with one level of Token unwrapping
when the matched record carries a `value` field. -/
def resolveLookup (reg : JsFields) (name : Str) : Option Str :=
  match specLookup reg name with
  | none => none
  | some (vObj fs) =>
      match getOwn fs valueKey with
      | some w => scalarStr w
      | none => none
  | some w => scalarStr w

/-- Modelled from the spec: one substitution pass of the Resolver (section
4.4 steps 2-3) — scan left to right, replacing every innermost `\x7bname\x7d`
span whose name resolves and leaving the other characters in place.  The
accumulator is `none` outside a candidate span and `some acc` (reversed
name so far) after an opening brace. -/
def substAux (reg : JsFields) : Str → Option Str → Str
  | [], none => []
  | [], some acc => '{' :: acc.reverse
  | '{' :: r, none => substAux reg r (some [])
  | '{' :: r, some acc => '{' :: acc.reverse ++ substAux reg r (some [])
  | '}' :: r, some [] => '{' :: '}' :: substAux reg r none
  | '}' :: r, some acc =>
      match resolveLookup reg acc.reverse with
      | some repl => repl ++ substAux reg r none
      | none => '{' :: acc.reverse ++ '}' :: substAux reg r none
  | c :: r, some acc => substAux reg r (some (c :: acc))
  | c :: r, none => c :: substAux reg r none

/-- Modelled from the spec: the fixed maximum number of substitution passes
(section 4.4 step 4 suggests the small constant 10). -/
def MAX_RESOLVE_PASSES : Nat := 10

/-- Modelled from the spec: the bounded substitution loop — stop early once
no opening brace remains, stop unconditionally when the pass budget is
exhausted. -/
def resolvePasses (reg : JsFields) : Nat → Str → Str
  | 0, s => s
  | n + 1, s =>
      if s.contains '{' then resolvePasses reg n (substAux reg s none) else s

/-- Modelled from the spec: the Resolver's `resolve(value)` (section 4.4).
A value with no opening brace is already a literal; otherwise up to
`MAX_RESOLVE_PASSES` substitution passes run, any residual brace makes the
result "unresolved", and a brace-free residue is looked up once more (step
5), falling back to the residue itself when it is not a registered path. -/
def resolveValue (reg : JsFields) (s : Str) : ResolveResult :=
  if !(s.contains '{') then .resolved s
  else
    let r := resolvePasses reg MAX_RESOLVE_PASSES s
    if r.contains '{' || r.contains '}' then .unresolved
    else
      match resolveLookup reg r with
      | some t => .resolved t
      | none => .resolved r

/-- Specification-side predicate of claim C9: the entire string is exactly
one reference span — an opening brace, a non-empty name containing neither
an opening nor a closing brace, and a closing brace, with no other
characters before or after. -/
def specSimpleRef (s : Str) : Bool :=
  decide (s.head? = some '{') && decide (s.getLast? = some '}') &&
    !(sliceInner s).isEmpty &&
    (sliceInner s).all (fun c => c != '{' && c != '}')

/-- Token record with a string `value` and a string `type`, the shape the
walker classifies as a leaf. -/
def mkTok (s t : Str) : JsValue :=
  vObj (ofList [(valueKey, vStr s), (typeKey, vStr t)])

/-- Leaf predicate of the walker and of `registerTokens` (source lines 211
and 341): a record carrying both a `value` and a `type` field. -/
def isTokenRecord (v : JsValue) : Bool :=
  (getProp v valueKey).isSome && (getProp v typeKey).isSome

/-- One-token file `\x7ba: \x7bb: token\x7d\x7d` used in the registration
scenarios. -/
def fileAB (s t : Str) : JsValue :=
  vObj (ofList [(("a".toList), vObj (ofList [(("b".toList), mkTok s t)]))])

/-- Registry left behind by registering `fileAB s1 t1` and then a
conflicting `fileAB s2 t2` into an initially empty registry. -/
def regTwice (s1 t1 s2 t2 : Str) : JsFields :=
  registerTokens (fileAB s2 t2) (registerTokens (fileAB s1 t1) nil)

/-- Input file of claim C8: a `selector` token resolving to `primary` and a
`group.primary` token. -/
def fileC8 : JsValue :=
  vObj (ofList
    [(("selector".toList), mkTok ("primary".toList) ("string".toList)),
     (("group".toList), vObj (ofList
        [(("primary".toList), mkTok ("#ff0000".toList) ("color".toList))]))])

/-- Registry of claim C8. -/
def regC8 : JsFields := registerTokens fileC8 nil

/-- Registry of claim C5's witness: the two-token reference cycle
`a = \x7bb\x7d`, `b = \x7ba\x7d`. -/
def regCycle : JsFields :=
  ofList [(("a".toList), mkTok ("\x7bb\x7d".toList) ("string".toList)),
          (("b".toList), mkTok ("\x7ba\x7d".toList) ("string".toList))]

/-- Non-string scalar predicate of claim C10. -/
def isNonStringScalar : JsValue → Bool
  | vNum _ => true
  | vBool _ => true
  | _ => false

/-- Plain-object predicate (registered token records are always plain
objects, because the walker only classifies plain objects as leaves). -/
def isObjV : JsValue → Bool
  | vObj _ => true
  | _ => false

/-- Segment-wise prefix relation on paths (equality included). -/
def SegPre (ps qs : List Str) : Prop := ps = qs.take ps.length

/-- Two paths neither of which is a segment-wise prefix of the other. -/
def NoPre (ps qs : List Str) : Prop := ¬ SegPre ps qs ∧ ¬ SegPre qs ps

/-- A well-formed path segment for the registry agreement theorem:
non-empty, free of dots, and not an `Object.prototype` member name. -/
def GoodSeg (k : Str) : Prop := k ≠ [] ∧ '.' ∉ k ∧ k ∉ protoProps

/-- A well-formed dotted path: a non-empty list of well-formed segments. -/
def GoodPath (ps : List Str) : Prop := ps ≠ [] ∧ ∀ k ∈ ps, GoodSeg k

/-- Dotted rendering of a segment list. -/
def dotted : List Str → Str
  | [] => []
  | [p] => p
  | p :: rest => p ++ '.' :: dotted rest

/-- Registry built by a sequence of single-leaf registrations (each one the
source's lines 211-235), starting from the empty registry. -/
def regAll (l : List (List Str × JsValue)) : JsFields :=
  l.foldl (fun reg pr => registerLeaf reg (dotted pr.1) pr.2) nil

/-- Own-property descent through nested groups (the raw tree view of the
registry, reading only own properties). -/
def descendOwn : JsValue → List Str → Option JsValue
  | v, [] => some v
  | vObj fs, p :: r =>
      match getOwn fs p with
      | some w => descendOwn w r
      | none => none
  | _, _ :: _ => none

/-- Tree view of a registry at a segment list. -/
def treeNode (reg : JsFields) (qs : List Str) : Option JsValue :=
  descendOwn (vObj reg) qs

/-- Strict segment-wise prefix. -/
def StrictPre (ps qs : List Str) : Prop := SegPre ps qs ∧ ps ≠ qs

/-- A path registered (with some record) in a registration list. -/
def Registered (l : List (List Str × JsValue)) (qs : List Str) : Prop :=
  ∃ r, (qs, r) ∈ l

/-- A path that is a strict prefix of some registered path. -/
def PreOfReg (l : List (List Str × JsValue)) (qs : List Str) : Prop :=
  ∃ pr ∈ l, StrictPre qs pr.1

/-- A path that strictly extends some registered path. -/
def ExtOfReg (l : List (List Str × JsValue)) (qs : List Str) : Prop :=
  ∃ pr ∈ l, StrictPre pr.1 qs

/-- Representation invariant tying a registry object to the list of leaf
registrations that produced it: every registered path is present in both
the flat view and the tree view with its record; every well-formed strict
prefix of a registered path holds a group object; every other well-formed
path unrelated to the registered ones holds nothing (paths extending a
registered path descend into the record itself and are unconstrained). -/
def StrongInv (l : List (List Str × JsValue)) (reg : JsFields) : Prop :=
  (∀ pr ∈ l, getOwn reg (dotted pr.1) = some pr.2 ∧
    treeNode reg pr.1 = some pr.2) ∧
  (∀ qs, GoodPath qs → ¬ Registered l qs → PreOfReg l qs →
    ∃ gs, treeNode reg qs = some (vObj gs)) ∧
  (∀ qs, GoodPath qs → ¬ Registered l qs → ¬ PreOfReg l qs → ¬ ExtOfReg l qs →
    treeNode reg qs = none)

/-- Concrete registration list exercising the registry agreement
theorem. -/
def regListW : List (List Str × JsValue) :=
  [([("a".toList), ("b".toList)], mkTok ("red".toList) ("color".toList)),
   ([("c".toList)], mkTok ("x".toList) ("number".toList))]

instance (ps qs : List Str) : Decidable (SegPre ps qs) :=
  decidable_of_iff (ps = qs.take ps.length) Iff.rfl

instance (ps qs : List Str) : Decidable (NoPre ps qs) :=
  decidable_of_iff (¬ SegPre ps qs ∧ ¬ SegPre qs ps) Iff.rfl

instance (k : Str) : Decidable (GoodSeg k) :=
  decidable_of_iff (k ≠ [] ∧ '.' ∉ k ∧ k ∉ protoProps) Iff.rfl

instance (ps : List Str) : Decidable (GoodPath ps) :=
  decidable_of_iff (ps ≠ [] ∧ ∀ k ∈ ps, GoodSeg k) Iff.rfl

/-- Claim C1: the claim states that a record with a defined `value` but no
`type` is classified as a leaf and that validation reports a
missing-`type` StructuralError for it.  The code disagrees: the walker
(line 341) requires both `value` and `type` before treating a node as a
token, so the record `a = \x7b value: "x" \x7d` is silently recursed into
as a group, nothing is registered, and the whole file validates with no
error, no warning, and an untouched regex state. -/
theorem missingTypeTokenYieldsNoFinding :
    validateTokenFile
      (vObj (ofList [(("a".toList), vObj (ofList [(valueKey, vStr ("x".toList))]))]))
      nil 0
      = (([], [], 0), nil) := rfl

/-- Claim C2: the claim states that a simple reference to any unregistered
path is reported, explicitly including built-in property names such as
`toString` and `constructor`.  The code disagrees: `tokenExists` probes
`tokenRegistry[tokenName]` with a plain property read, so names inherited
from `Object.prototype` are truthy even in an empty registry, and tokens
referencing `\x7btoString\x7d` or `\x7bconstructor\x7d` validate without
any finding. -/
theorem unregisteredProtoNameReferenceAccepted :
    getOwn nil ("toString".toList) = none ∧
    tokenExists nil ("toString".toList) 0 = (true, 0) ∧
    validateToken ("tok".toList)
      (mkTok ("\x7btoString\x7d".toList) ("color".toList)) nil 0 = ([], [], 0) ∧
    validateToken ("tok".toList)
      (mkTok ("\x7bconstructor\x7d".toList) ("color".toList)) nil 0 = ([], [], 0) :=
  ⟨rfl, rfl, rfl, rfl⟩

/-- Claim C6: the claim states that `containsTokenReferences` is pure and
deterministic.  The code disagrees: the global regex keeps its `lastIndex`
between calls, so on the string `\x7ba\x7d` a first call (state 0) answers
`true` and moves the state to 3, and an immediately repeated call then
answers `false` for the very same string. -/
theorem containsTokenReferencesStateful :
    containsTokenReferences (vStr ("\x7ba\x7d".toList)) 0 = (true, 3) ∧
    (containsTokenReferences (vStr ("\x7ba\x7d".toList)) 3).1 = false :=
  ⟨rfl, rfl⟩

/-- Claim C8: with a registry holding a token at `selector` (whose value is
`primary`) and a token at `group.primary`, a token whose value is the
composite nested reference `\x7bgroup.\x7bselector\x7d\x7d` validates with
no error finding. -/
theorem nestedReferenceValidatesCleanly :
    flatLookup regC8 ("selector".toList)
        = some (mkTok ("primary".toList) ("string".toList)) ∧
    stepLookup regC8 [("group".toList), ("primary".toList)]
        = some (mkTok ("#ff0000".toList) ("color".toList)) ∧
    (validateToken ("brand".toList)
        (mkTok ("\x7bgroup.\x7bselector\x7d\x7d".toList) ("color".toList))
        regC8 0).1 = [] :=
  ⟨rfl, rfl, rfl⟩

/-- Claim C3 (counterexample): the claim states that after a second,
conflicting registration of the same dotted path, every registry lookup
still yields the first definition.  In the flat view this fails: the flat
write `tokenRegistry[tokenPath] = value` is unconditional, so the flat
lookup of `a.b` yields the second definition, which differs from the
first. -/
theorem flatViewOverwrittenOnDuplicate :
    flatLookup (regTwice ("red".toList) ("color".toList) ("blue".toList) ("color".toList))
        ("a.b".toList)
      = some (mkTok ("blue".toList) ("color".toList)) ∧
    mkTok ("blue".toList) ("color".toList) ≠ mkTok ("red".toList) ("color".toList) := by
  refine ⟨rfl, ?_⟩
  intro h
  simp only [mkTok, ofList, valueKey, typeKey] at h
  injection h with hf
  injection hf with hk hv hrest
  injection hv with hs
  exact absurd hs (by decide)

/-- Claim C3 (amended): under a duplicate conflicting registration of the
multi-segment path `a.b`, the stepwise (hierarchical) view keeps the
first-registered definition, while the flat full-path entry is overwritten
and yields the second registration — first registration wins in the
hierarchical view only. -/
theorem duplicateRegistrationSplitViews (s1 t1 s2 t2 : Str) :
    stepLookup (regTwice s1 t1 s2 t2) [("a".toList), ("b".toList)] = some (mkTok s1 t1) ∧
    flatLookup (regTwice s1 t1 s2 t2) ("a.b".toList) = some (mkTok s2 t2) :=
  ⟨rfl, rfl⟩

/-- Claim C4 (counterexample): the claim states that whenever the flat
lookup and the stepwise lookup both find a leaf token at the same dotted
path they yield the same value.  After registering two conflicting
definitions of `a.b`, both views find a leaf-token record at `a.b` and the
values differ. -/
theorem registryViewsDivergeOnDuplicate :
    flatLookup (regTwice ("red".toList) ("color".toList) ("blue".toList) ("color".toList))
        ("a.b".toList)
      = some (mkTok ("blue".toList) ("color".toList)) ∧
    stepLookup (regTwice ("red".toList) ("color".toList) ("blue".toList) ("color".toList))
        [("a".toList), ("b".toList)]
      = some (mkTok ("red".toList) ("color".toList)) ∧
    isTokenRecord (mkTok ("blue".toList) ("color".toList)) = true ∧
    isTokenRecord (mkTok ("red".toList) ("color".toList)) = true ∧
    mkTok ("blue".toList) ("color".toList) ≠ mkTok ("red".toList) ("color".toList) := by
  refine ⟨rfl, rfl, rfl, rfl, ?_⟩
  intro h
  simp only [mkTok, ofList, valueKey, typeKey] at h
  injection h with hf
  injection hf with hk hv hrest
  injection hv with hs
  exact absurd hs (by decide)

/-- Claim C7 (counterexample): the claim states that a value containing
both a reference span and an operator character is never reported for an
unresolvable embedded reference.  The value `\x7ba-b\x7d` contains a span
and the operator `-`, yet it is a full-span simple reference, so the
simple-reference branch checks it first and reports the unregistered path
`a-b`. -/
theorem operatorSimpleReferenceStillChecked :
    (containsTokenReferences (vStr ("\x7ba-b\x7d".toList)) 0).1 = true ∧
    isExpression (vStr ("\x7ba-b\x7d".toList)) = true ∧
    (validateToken ("tok".toList)
        (mkTok ("\x7ba-b\x7d".toList) ("color".toList)) nil 0).1
      = [Finding.unresolvedRef ("tok".toList) ("a-b".toList)] :=
  ⟨rfl, rfl, rfl⟩

/-- Expression-valued tokens never accumulate an error in the reference
loop (the guard of source line 296). -/
theorem checkRefsExpressionNoErrors (tokenPath : Str) (tokenValue : JsValue)
    (reg : JsFields) (hexp : isExpression tokenValue = true) :
    ∀ refs li, (checkRefs tokenPath tokenValue reg refs li).1 = [] := by
  intro refs
  induction refs with
  | nil => intro li; rfl
  | cons ref rest ih =>
    intro li
    simp only [checkRefs, hexp, if_true]
    split
    · exact ih _
    · split
      · exact ih _
      · exact ih _

/-- Claim C7 (amended): a token value containing at least one reference
span and at least one operator character produces no
UnresolvedReferenceError for its embedded references — provided the value
is not itself a single full-span simple reference, in which case the
simple-reference branch still checks and reports it. -/
theorem expressionValuesSkipReferenceChecks
    (s : Str) (tok : JsValue) (tokenPath : Str) (reg : JsFields) (li : Nat)
    (hval : getProp tok valueKey = some (vStr s))
    (href : extractRefs s ≠ [])
    (hexp : isExpression (vStr s) = true)
    (hsimple : isSimpleTokenReference (vStr s) = false) :
    ∀ p r, Finding.unresolvedRef p r ∉ (validateToken tokenPath tok reg li).1 := by
  intro p r
  have hck := checkRefsExpressionNoErrors tokenPath (vStr s) reg hexp
  simp only [validateToken, hval, hsimple, Option.isNone_some, Bool.false_eq_true,
    if_false, extractAllTokenReferences]
  split
  · simp [hck, List.mem_append]
  · simp [List.mem_append]

/-- Claim C7 (amended) witness: the concrete expression value
`x+\x7ba\x7d` with an empty registry. -/
theorem expressionValuesSkipReferenceChecksWitness :
    extractRefs ("x+\x7ba\x7d".toList) ≠ [] ∧
    isExpression (vStr ("x+\x7ba\x7d".toList)) = true ∧
    isSimpleTokenReference (vStr ("x+\x7ba\x7d".toList)) = false ∧
    Finding.unresolvedRef ("p".toList) ("a".toList) ∉
      (validateToken ("tok".toList)
        (mkTok ("x+\x7ba\x7d".toList) ("color".toList)) nil 0).1 :=
  ⟨by decide, by decide, by decide,
   expressionValuesSkipReferenceChecks ("x+\x7ba\x7d".toList)
     (mkTok ("x+\x7ba\x7d".toList) ("color".toList)) ("tok".toList) nil 0
     rfl (by decide) (by decide) (by decide) ("p".toList) ("a".toList)⟩

/-- Claim C10: a leaf token whose `value` is a non-string scalar (number or
boolean) makes every reference-grammar predicate return `false`, leaves the
regex state untouched, extracts no references, and — when its `type` is in
the known set — validates with no finding at all. -/
theorem nonStringScalarTokenCleanValidation
    (v : JsValue) (hv : isNonStringScalar v = true)
    (ty : Str) (hty : ty ∈ VALID_TOKEN_TYPES)
    (tokenPath : Str) (reg : JsFields) (li : Nat) :
    isSimpleTokenReference v = false ∧
    containsTokenReferences v li = (false, li) ∧
    isExpression v = false ∧
    extractAllTokenReferences v li = ([], li) ∧
    validateToken tokenPath (vObj (ofList [(valueKey, v), (typeKey, vStr ty)])) reg li
      = ([], [], li) := by
  have hdec : decide (ty ∈ VALID_TOKEN_TYPES) = true := decide_eq_true hty
  cases v with
  | vNum n =>
      refine ⟨rfl, rfl, rfl, rfl, ?_⟩
      simp [validateToken, ofList, getProp, getOwn, valueKey, typeKey, hdec,
        isSimpleTokenReference, containsTokenReferences]
  | vBool b =>
      refine ⟨rfl, rfl, rfl, rfl, ?_⟩
      simp [validateToken, ofList, getProp, getOwn, valueKey, typeKey, hdec,
        isSimpleTokenReference, containsTokenReferences]
  | vStr s => simp [isNonStringScalar] at hv
  | vNull => simp [isNonStringScalar] at hv
  | vArr => simp [isNonStringScalar] at hv
  | vFun f => simp [isNonStringScalar] at hv
  | vObj fs => simp [isNonStringScalar] at hv

/-- Claim C10 witness: the numeric token `value: 5, type: "number"`. -/
theorem nonStringScalarTokenCleanValidationWitness :
    isNonStringScalar (vNum 5) = true ∧
    ("number".toList) ∈ VALID_TOKEN_TYPES ∧
    validateToken ("tok".toList)
      (vObj (ofList [(valueKey, vNum 5), (typeKey, vStr ("number".toList))])) nil 0
      = ([], [], 0) :=
  ⟨rfl, by decide,
   (nonStringScalarTokenCleanValidation (vNum 5) rfl ("number".toList) (by decide)
     ("tok".toList) nil 0).2.2.2.2⟩

/-- Claim C5: with any registry in which the Resolver's lookup sends `a` to
the value `\x7bb\x7d` and `b` to the value `\x7ba\x7d` (a reference cycle),
resolving either value terminates within the fixed pass ceiling — the
substitution loop is a total function bounded by `MAX_RESOLVE_PASSES` — and
returns the "unresolved" sentinel rather than looping. -/
theorem cyclicReferencesResolveUnresolved (reg : JsFields)
    (ha : resolveLookup reg ("a".toList) = some ("\x7bb\x7d".toList))
    (hb : resolveLookup reg ("b".toList) = some ("\x7ba\x7d".toList)) :
    resolveValue reg ("\x7ba\x7d".toList) = ResolveResult.unresolved ∧
    resolveValue reg ("\x7bb\x7d".toList) = ResolveResult.unresolved := by
  have ha' : resolveLookup reg ['a'] = some ('{' :: 'b' :: '}' :: []) := ha
  have hb' : resolveLookup reg ['b'] = some ('{' :: 'a' :: '}' :: []) := hb
  have hsa : substAux reg ('{' :: 'a' :: '}' :: []) none = '{' :: 'b' :: '}' :: [] := by
    simp [substAux, ha']
  have hsb : substAux reg ('{' :: 'b' :: '}' :: []) none = '{' :: 'a' :: '}' :: [] := by
    simp [substAux, hb']
  constructor <;>
    simp [resolveValue, MAX_RESOLVE_PASSES, resolvePasses, hsa, hsb]

/-- Claim C5 witness: the concrete two-token cycle registry. -/
theorem cyclicReferencesResolveUnresolvedWitness :
    resolveLookup regCycle ("a".toList) = some ("\x7bb\x7d".toList) ∧
    resolveLookup regCycle ("b".toList) = some ("\x7ba\x7d".toList) ∧
    (resolveValue regCycle ("\x7ba\x7d".toList) = ResolveResult.unresolved ∧
     resolveValue regCycle ("\x7bb\x7d".toList) = ResolveResult.unresolved) :=
  ⟨rfl, rfl, cyclicReferencesResolveUnresolved regCycle rfl rfl⟩

/-- Claim C9 (counterexample): the claim states that
`isSimpleTokenReference` accepts exactly the strings made of one opening
brace, a non-empty name with no brace of either kind, and one closing
brace.  The code disagrees on both boundary shapes: it accepts the empty
span `\x7b\x7d` (empty name) and the string `\x7ba\x7db\x7d` (whose
interior contains a closing brace), neither of which is a single
well-formed span in the claim's sense — shown both against the executable
spec predicate `specSimpleRef` and against the direct decomposition
statement. -/
theorem simpleReferenceSpecCounterexample :
    isSimpleTokenReference (vStr ("\x7b\x7d".toList)) = true ∧
    specSimpleRef ("\x7b\x7d".toList) = false ∧
    (¬ ∃ name : Str, name ≠ [] ∧ (∀ c ∈ name, c ≠ '{' ∧ c ≠ '}') ∧
        ("\x7b\x7d".toList) = '{' :: (name ++ ['}'])) ∧
    isSimpleTokenReference (vStr ("\x7ba\x7db\x7d".toList)) = true ∧
    specSimpleRef ("\x7ba\x7db\x7d".toList) = false ∧
    (¬ ∃ name : Str, name ≠ [] ∧ (∀ c ∈ name, c ≠ '{' ∧ c ≠ '}') ∧
        ("\x7ba\x7db\x7d".toList) = '{' :: (name ++ ['}'])) := by
  refine ⟨rfl, rfl, ?_, rfl, rfl, ?_⟩
  · rintro ⟨name, hne, hchars, heq⟩
    have heq2 : ('}' :: ([] : Str)) = name ++ ['}'] := by
      have heq' : ('{' :: '}' :: ([] : Str)) = '{' :: (name ++ ['}']) := heq
      injection heq'
    have hlen := congrArg List.length heq2
    simp at hlen
    exact hne hlen
  · rintro ⟨name, hne, hchars, heq⟩
    have heq2 : (['a', '}', 'b'] : Str) ++ ['}'] = name ++ ['}'] := by
      have heq' : ('{' :: 'a' :: '}' :: 'b' :: '}' :: ([] : Str))
          = '{' :: (name ++ ['}']) := heq
      injection heq'
    have hname : (['a', '}', 'b'] : Str) = name := (List.append_inj' heq2 rfl).1
    have hmem : '}' ∈ name := by rw [← hname]; simp
    exact (hchars '}' hmem).2 rfl

/-- Claim C9 (amended): `isSimpleTokenReference` accepts exactly the
strings of the shape `\x7b` ++ name ++ `\x7d` where the (possibly empty)
name contains no opening brace — the name may be empty and may contain
closing braces, with no constraint beyond the absence of `\x7b`. -/
theorem isSimpleTokenReferenceCharacterization (s : Str) :
    isSimpleTokenReference (vStr s) = true ↔
      ∃ name : Str, '{' ∉ name ∧ s = '{' :: (name ++ ['}']) := by
  constructor
  · intro h
    simp only [isSimpleTokenReference, Bool.and_eq_true, decide_eq_true_eq,
      Bool.not_eq_true'] at h
    obtain ⟨⟨hhead, hlast⟩, hcont⟩ := h
    cases s with
    | nil => simp at hhead
    | cons c t =>
      have hc : c = '{' := by simpa using hhead
      subst hc
      cases t with
      | nil => simp [List.getLast?] at hlast
      | cons d u =>
        have hne : d :: u ≠ [] := by simp
        have hlast2 : (d :: u).getLast? = some '}' := by
          rw [← List.getLast?_cons_cons]; exact hlast
        have hlast3 : (d :: u).getLast hne = '}' := by
          have he := List.getLast?_eq_getLast (d :: u) hne
          rw [he] at hlast2
          exact Option.some_injective _ hlast2
        refine ⟨(d :: u).dropLast, ?_, ?_⟩
        · have hsl : sliceInner ('{' :: d :: u) = (d :: u).dropLast := by
            simp [sliceInner]
          rw [hsl] at hcont
          intro hmem
          rw [← List.elem_iff] at hmem
          rw [show ((d :: u).dropLast.contains '{') = (d :: u).dropLast.elem '{' from rfl]
            at hcont
          rw [hmem] at hcont
          simp at hcont
        · have hdec : (d :: u).dropLast ++ [(d :: u).getLast hne] = d :: u :=
            List.dropLast_append_getLast hne
          rw [hlast3] at hdec
          rw [hdec]
  · rintro ⟨name, hni, rfl⟩
    have hsl : sliceInner ('{' :: (name ++ ['}'])) = name := by
      simp [sliceInner]
    simp only [isSimpleTokenReference, hsl, Bool.and_eq_true, decide_eq_true_eq,
      Bool.not_eq_true']
    refine ⟨⟨rfl, ?_⟩, ?_⟩
    · rw [show ('{' :: (name ++ ['}'])) = ('{' :: name) ++ ['}'] by simp]
      exact List.getLast?_concat _
    · rw [show (name.contains '{') = name.elem '{' from rfl]
      rw [Bool.eq_false_iff]
      intro he
      exact hni (List.elem_iff.mp he)

/-- Spine induction for object field lists (the field keys and values are
not recursed into, only the list structure). -/
theorem jsFields_spine_ind {motive : JsFields → Prop} (hnil : motive nil)
    (hcons : ∀ k v rest, motive rest → motive (cons k v rest)) (fs : JsFields) :
    motive fs :=
  @JsFields.rec (fun _ => True) motive
    (fun _ => trivial) (fun _ => trivial) (fun _ => trivial) trivial trivial
    (fun _ => trivial) (fun _ _ => trivial)
    hnil (fun k v rest _ ih => hcons k v rest ih) fs

/-- Writing a key makes it readable. -/
theorem getOwn_setOwn_self (fs : JsFields) (k : Str) (v : JsValue) :
    getOwn (setOwn fs k v) k = some v := by
  induction fs using jsFields_spine_ind with
  | hnil => simp [setOwn, getOwn]
  | hcons k2 w rest ih =>
    by_cases h : k2 = k
    · subst h; simp [setOwn, getOwn]
    · simp [setOwn, getOwn, h, ih]

/-- Writing a key leaves every other key unchanged. -/
theorem getOwn_setOwn_other (fs : JsFields) (k : Str) (v : JsValue) (k2 : Str)
    (h : k2 ≠ k) : getOwn (setOwn fs k v) k2 = getOwn fs k2 := by
  induction fs using jsFields_spine_ind with
  | hnil => simp [setOwn, getOwn, Ne.symm h]
  | hcons k3 w rest ih =>
    by_cases hk : k3 = k
    · subst hk
      simp [setOwn, getOwn, Ne.symm h]
    · simp [setOwn, getOwn, hk, ih]

/-- `split('.')` walks over a dot-free block in one piece. -/
theorem splitDotAux_nodot (k : Str) (hnd : '.' ∉ k) :
    ∀ s acc, splitDotAux (k ++ s) acc = splitDotAux s (k.reverse ++ acc) := by
  induction k with
  | nil => intro s acc; simp
  | cons c kt ih =>
    intro s acc
    have hc : c ≠ '.' := fun h => hnd (h ▸ List.mem_cons_self _ _)
    have hnd2 : '.' ∉ kt := fun hm => hnd (List.mem_cons_of_mem _ hm)
    have h1 : splitDotAux ((c :: kt) ++ s) acc = splitDotAux (kt ++ s) (c :: acc) := by
      simp only [List.cons_append, splitDotAux, hc]
    rw [h1, ih hnd2 s (c :: acc)]
    simp

/-- `split('.')` of a dot-free string is that string alone. -/
theorem splitDot_nodot (k : Str) (hnd : '.' ∉ k) : splitDot k = [k] := by
  have h := splitDotAux_nodot k hnd [] []
  simp only [List.append_nil] at h
  rw [splitDot, h]
  simp [splitDotAux]

/-- `split('.')` inverts the dotted rendering of well-formed segments. -/
theorem splitDot_dotted (ps : List Str) (hne : ps ≠ [])
    (hnd : ∀ k ∈ ps, '.' ∉ k) : splitDot (dotted ps) = ps := by
  induction ps with
  | nil => exact absurd rfl hne
  | cons p rest ih =>
    cases rest with
    | nil =>
      exact splitDot_nodot p (hnd p (List.mem_cons_self _ _))
    | cons q u =>
      have hp : '.' ∉ p := hnd p (List.mem_cons_self _ _)
      have hrest : ∀ k ∈ q :: u, '.' ∉ k := fun k hk => hnd k (List.mem_cons_of_mem _ hk)
      have hd : dotted (p :: q :: u) = p ++ '.' :: dotted (q :: u) := rfl
      have h1 : splitDot (dotted (p :: q :: u))
          = splitDotAux ('.' :: dotted (q :: u)) (p.reverse ++ []) := by
        rw [splitDot, hd]
        exact splitDotAux_nodot p hp ('.' :: dotted (q :: u)) []
      have h2 : splitDotAux ('.' :: dotted (q :: u)) (p.reverse ++ [])
          = (p.reverse ++ []).reverse :: splitDotAux (dotted (q :: u)) [] := by
        simp only [splitDotAux]
      rw [h1, h2]
      have h3 : splitDotAux (dotted (q :: u)) [] = splitDot (dotted (q :: u)) := rfl
      rw [h3, ih (by simp) hrest]
      simp

/-- A dotted multi-segment path contains a dot. -/
theorem dot_mem_dotted (p q : Str) (u : List Str) : '.' ∈ dotted (p :: q :: u) := by
  have hd : dotted (p :: q :: u) = p ++ '.' :: dotted (q :: u) := rfl
  rw [hd]
  exact List.mem_append_right _ (List.mem_cons_self _ _)

/-- Prefix relation under a common head segment. -/
theorem segPre_cons (p : Str) (l1 l2 : List Str) :
    SegPre (p :: l1) (p :: l2) ↔ SegPre l1 l2 := by
  simp [SegPre, List.take_succ_cons]

/-- Every path is a prefix of itself. -/
theorem segPre_refl (l : List Str) : SegPre l l := by
  simp [SegPre]

/-- The prefix-free relation is symmetric. -/
theorem noPre_symm {a b : List Str} (h : NoPre a b) : NoPre b a := ⟨h.2, h.1⟩

/-- Initial segments are prefixes. -/
theorem segPre_take (ps : List Str) (n : Nat) : SegPre (ps.take n) ps := by
  simp [SegPre, List.take_take]

/-- A prefix is no longer than the whole. -/
theorem segPre_length {a b : List Str} (h : SegPre a b) : a.length ≤ b.length := by
  have h2 := congrArg List.length h
  simp at h2
  omega

/-- Prefix is transitive. -/
theorem segPre_trans {a b c : List Str} (h1 : SegPre a b) (h2 : SegPre b c) :
    SegPre a c := by
  have hl : a.length ≤ b.length := segPre_length h1
  rw [SegPre] at h1 h2 ⊢
  calc a = b.take a.length := h1
    _ = (c.take b.length).take a.length := by rw [← h2]
    _ = c.take (min a.length b.length) := by rw [List.take_take]
    _ = c.take a.length := by rw [Nat.min_eq_left hl]

/-- Mutual prefixes coincide. -/
theorem segPre_antisymm {a b : List Str} (h1 : SegPre a b) (h2 : SegPre b a) :
    a = b := by
  have l1 := segPre_length h1
  have l2 := segPre_length h2
  rw [SegPre] at h1
  rw [h1]
  have hl : a.length = b.length := Nat.le_antisymm l1 l2
  rw [hl, List.take_length]

/-- Initial segments of a well-formed path are well-formed. -/
theorem goodPath_take {ps : List Str} (h : GoodPath ps) (n : Nat) (hn : 0 < n) :
    GoodPath (ps.take n) := by
  obtain ⟨hne, hseg⟩ := h
  refine ⟨?_, fun k hk => hseg k (List.take_subset _ _ hk)⟩
  cases ps with
  | nil => exact absurd rfl hne
  | cons p rest =>
    cases n with
    | zero => omega
    | succ m => simp [List.take_succ_cons]

/-- Descent into a non-object value fails. -/
theorem descendOwn_nonobj (w : JsValue) (hw : isObjV w = false) (c : Str)
    (d : List Str) : descendOwn w (c :: d) = none := by
  cases w <;> first
    | rfl
    | simp [isObjV] at hw

/-- The hierarchical insert writes only its first segment at the top
level. -/
theorem hierInsert_getOwn_other (fs : JsFields) (p : Str) (rest : List Str)
    (rec : JsValue) (k : Str) (hk : k ≠ p) :
    getOwn (hierInsert fs (p :: rest) rec) k = getOwn fs k := by
  cases rest with
  | nil =>
    rw [hierInsert]
    split
    · exact getOwn_setOwn_other _ _ _ _ hk
    · rfl
  | cons a b =>
    simp only [hierInsert]
    split
    · exact getOwn_setOwn_other _ _ _ _ hk
    · split
      · rfl
      · exact getOwn_setOwn_other _ _ _ _ hk
    · split
      · rfl
      · exact getOwn_setOwn_other _ _ _ _ hk

/-- A single-segment hierarchical insert on an occupied slot leaves that
very record in the slot (either branch of the guard rewrites it to the same
value or keeps it). -/
theorem hierInsert_single_occupied (fs : JsFields) (p : Str) (rec : JsValue)
    (h : getOwn fs p = some rec) :
    getOwn (hierInsert fs [p] rec) p = some rec := by
  rw [hierInsert]
  split
  · exact getOwn_setOwn_self _ _ _
  · exact h

/-- The hierarchical insert along one path does not change the tree view at
any path that is prefix-incomparable with it. -/
theorem hierInsert_descend_other :
    ∀ (parts : List Str) (fs : JsFields) (rec : JsValue) (qs : List Str),
      parts ≠ [] → qs ≠ [] → (∀ k ∈ qs, GoodSeg k) → NoPre parts qs →
      descendOwn (vObj (hierInsert fs parts rec)) qs = descendOwn (vObj fs) qs := by
  intro parts
  induction parts with
  | nil => intro fs rec qs h _ _ _; exact absurd rfl h
  | cons p rest ih =>
    intro fs rec qs _ hqs hgood hnp
    cases qs with
    | nil => exact absurd rfl hqs
    | cons q qr =>
      by_cases hpq : q = p
      case neg =>
        have hL : getOwn (hierInsert fs (p :: rest) rec) q = getOwn fs q :=
          hierInsert_getOwn_other fs p rest rec q hpq
        simp only [descendOwn, hL]
      case pos =>
        subst hpq
        have hrest : rest ≠ [] := by
          rintro rfl
          exact hnp.1 (by simp [SegPre])
        have hqr : qr ≠ [] := by
          rintro rfl
          exact hnp.2 (by simp [SegPre])
        have hnp2 : NoPre rest qr :=
          ⟨fun hh => hnp.1 ((segPre_cons q rest qr).mpr hh),
           fun hh => hnp.2 ((segPre_cons q qr rest).mpr hh)⟩
        have hgq : GoodSeg q := hgood q (List.mem_cons_self _ _)
        have hgood2 : ∀ k ∈ qr, GoodSeg k :=
          fun k hk => hgood k (List.mem_cons_of_mem _ hk)
        cases rest with
        | nil => exact absurd rfl hrest
        | cons a b =>
          cases qr with
          | nil => exact absurd rfl hqr
          | cons c d =>
            have hihX : ∀ gs2 : JsFields,
                descendOwn (vObj (hierInsert gs2 (a :: b) rec)) (c :: d)
                  = descendOwn (vObj gs2) (c :: d) :=
              fun gs2 => ih gs2 rec (c :: d) (by simp) (by simp) hgood2 hnp2
            have hset : ∀ gs2 : JsFields,
                descendOwn (vObj (setOwn fs q (vObj gs2))) (q :: c :: d)
                  = descendOwn (vObj gs2) (c :: d) := by
              intro gs2
              rw [descendOwn, getOwn_setOwn_self]
            simp only [hierInsert]
            split
            · rename_i gs heq
              rw [hset, hihX]
              conv_rhs => rw [descendOwn, heq]
            · rename_i w hwne heq
              split
              · rfl
              · have hw : isObjV w = false := by
                  cases w <;> try rfl
                  exact (hwne _ rfl).elim
                rw [hset, hihX]
                conv_rhs => rw [descendOwn, heq]
                show (none : Option JsValue) = descendOwn w (c :: d)
                exact (descendOwn_nonobj w hw c d).symm
            · rename_i heq
              rw [if_neg hgq.2.2, hset, hihX]
              conv_rhs => rw [descendOwn, heq]
              rfl

/-- One-segment descent is the own-property read. -/
theorem descendOwn_single (fs : JsFields) (p : Str) :
    descendOwn (vObj fs) [p] = getOwn fs p := by
  cases hg : getOwn fs p with
  | none => rw [descendOwn, hg]
  | some w => simp [descendOwn, hg]

/-- Descent into the empty object fails. -/
theorem descendOwn_nil (c : Str) (d : List Str) :
    descendOwn (vObj nil) (c :: d) = none := by
  rw [descendOwn]; rfl

/-- The hierarchical insert establishes the inserted record at its path and
leaves a group object at every strict prefix, provided the slot is empty
beforehand and every strict prefix holds either nothing or a group
object. -/
theorem hierInsert_establish :
    ∀ (parts : List Str) (fs : JsFields) (rec : JsValue),
      parts ≠ [] → (∀ k ∈ parts, GoodSeg k) →
      (∀ n, 0 < n → n < parts.length →
        descendOwn (vObj fs) (parts.take n) = none ∨
        ∃ gs, descendOwn (vObj fs) (parts.take n) = some (vObj gs)) →
      descendOwn (vObj fs) parts = none →
      descendOwn (vObj (hierInsert fs parts rec)) parts = some rec ∧
      (∀ n, 0 < n → n < parts.length →
        ∃ gs, descendOwn (vObj (hierInsert fs parts rec)) (parts.take n)
          = some (vObj gs)) := by
  intro parts
  induction parts with
  | nil => intro fs rec h _ _ _; exact absurd rfl h
  | cons p rest ih =>
    intro fs rec _ hgood hchain hslot
    have hgp : GoodSeg p := hgood p (List.mem_cons_self _ _)
    cases rest with
    | nil =>
      have hg : getOwn fs p = none := by rw [← descendOwn_single]; exact hslot
      have hex : getProp (vObj fs) p = none := by
        rw [getProp, hg, if_neg hgp.2.2]
      constructor
      · rw [show hierInsert fs [p] rec = setOwn fs p rec by
          simp [hierInsert, hex, truthyO]]
        rw [descendOwn_single, getOwn_setOwn_self]
      · intro n h1 h2
        simp at h2
        omega
    | cons a b =>
      have hgood2 : ∀ k ∈ a :: b, GoodSeg k :=
        fun k hk => hgood k (List.mem_cons_of_mem _ hk)
      have hsetp : ∀ gs2 : JsFields, ∀ w : List Str,
          descendOwn (vObj (setOwn fs p (vObj gs2))) (p :: w)
            = descendOwn (vObj gs2) w := by
        intro gs2 w
        rw [descendOwn, getOwn_setOwn_self]
      have h1 := hchain 1 (by omega) (by simp)
      rw [show (p :: a :: b).take 1 = [p] from rfl, descendOwn_single] at h1
      cases h1 with
      | inl hg =>
        have hins : hierInsert fs (p :: a :: b) rec
            = setOwn fs p (vObj (hierInsert nil (a :: b) rec)) := by
          simp only [hierInsert, hg]
          rw [if_neg hgp.2.2]
        have ihh := ih nil rec (by simp) hgood2
          (by
            intro n hn1 hn2
            left
            cases n with
            | zero => omega
            | succ m =>
              rw [List.take_succ_cons, descendOwn_nil])
          (descendOwn_nil a b)
        obtain ⟨hmain, hpref⟩ := ihh
        rw [hins]
        constructor
        · rw [hsetp]; exact hmain
        · intro n hn1 hn2
          cases n with
          | zero => omega
          | succ m =>
            rw [List.take_succ_cons, hsetp]
            cases Nat.eq_zero_or_pos m with
            | inl hm0 =>
              subst hm0
              exact ⟨hierInsert nil (a :: b) rec, rfl⟩
            | inr hmpos =>
              exact hpref m hmpos (by simp at hn2 ⊢; omega)
      | inr hg2 =>
        obtain ⟨gs, hg⟩ := hg2
        have hstep : ∀ w : List Str,
            descendOwn (vObj fs) (p :: w) = descendOwn (vObj gs) w := by
          intro w
          rw [descendOwn, hg]
        have hins : hierInsert fs (p :: a :: b) rec
            = setOwn fs p (vObj (hierInsert gs (a :: b) rec)) := by
          simp only [hierInsert, hg]
        have ihh := ih gs rec (by simp) hgood2
          (by
            intro n hn1 hn2
            have := hchain (n + 1) (by omega) (by simp at hn2 ⊢; omega)
            rw [List.take_succ_cons, hstep] at this
            exact this)
          (by
            have := hslot
            rw [hstep] at this
            exact this)
        obtain ⟨hmain, hpref⟩ := ihh
        rw [hins]
        constructor
        · rw [hsetp]; exact hmain
        · intro n hn1 hn2
          cases n with
          | zero => omega
          | succ m =>
            rw [List.take_succ_cons, hsetp]
            cases Nat.eq_zero_or_pos m with
            | inl hm0 =>
              subst hm0
              exact ⟨hierInsert gs (a :: b) rec, rfl⟩
            | inr hmpos =>
              exact hpref m hmpos (by simp at hn2 ⊢; omega)

/-- A strict prefix is an initial segment of smaller length. -/
theorem strictPre_take {qs ps : List Str} (h : StrictPre qs ps) :
    qs = ps.take qs.length ∧ qs.length < ps.length := by
  obtain ⟨hs, hne⟩ := h
  refine ⟨hs, ?_⟩
  have hle := segPre_length hs
  cases Nat.lt_or_ge qs.length ps.length with
  | inl hlt => exact hlt
  | inr hge =>
    exfalso
    have hl2 : qs.length = ps.length := Nat.le_antisymm hle hge
    rw [SegPre, hl2, List.take_length] at hs
    exact hne hs

/-- Pushing a fresh registration through the representation invariant: once
the new record is present in both views, every strict prefix of its path
holds a group, incomparable paths are untouched, and the old flat entries
are untouched, the invariant transfers to the extended registration
list. -/
theorem strongInv_assemble (l : List (List Str × JsValue)) (reg res : JsFields)
    (ps : List Str) (rec : JsValue)
    (hgps : GoodPath ps)
    (hgl : ∀ pr ∈ l, GoodPath pr.1)
    (hnp : ∀ pr ∈ l, NoPre pr.1 ps)
    (hinv : StrongInv l reg)
    (F1 : getOwn res (dotted ps) = some rec)
    (F2 : treeNode res ps = some rec)
    (F3 : ∀ n, 0 < n → n < ps.length →
      ∃ gs, treeNode res (ps.take n) = some (vObj gs))
    (FT : ∀ qs, GoodPath qs → NoPre ps qs → treeNode res qs = treeNode reg qs)
    (FF : ∀ pr ∈ l, getOwn res (dotted pr.1) = getOwn reg (dotted pr.1)) :
    StrongInv (l ++ [(ps, rec)]) res := by
  obtain ⟨hA, hB, hC⟩ := hinv
  refine ⟨?_, ?_, ?_⟩
  · intro pr hpr
    rcases List.mem_append.mp hpr with hin | hnew
    · exact ⟨(FF pr hin).trans (hA pr hin).1,
        (FT pr.1 (hgl pr hin) (noPre_symm (hnp pr hin))).trans (hA pr hin).2⟩
    · have hpr2 : pr = (ps, rec) := by simpa using hnew
      subst hpr2
      exact ⟨F1, F2⟩
  · intro qs hgqs hnreg hpre
    by_cases hsp : StrictPre qs ps
    · obtain ⟨hq, hlt⟩ := strictPre_take hsp
      have hpos : 0 < qs.length := List.length_pos.mpr hgqs.1
      have h3 := F3 qs.length hpos hlt
      rw [← hq] at h3
      exact h3
    · have hpre2 : PreOfReg l qs := by
        obtain ⟨pr, hpr, hs⟩ := hpre
        rcases List.mem_append.mp hpr with hin | hnew
        · exact ⟨pr, hin, hs⟩
        · have hpr2 : pr = (ps, rec) := by simpa using hnew
          subst hpr2
          exact absurd hs hsp
      have hnreg2 : ¬ Registered l qs :=
        fun hr => hnreg ⟨hr.choose, List.mem_append.mpr (Or.inl hr.choose_spec)⟩
      have hnenew : qs ≠ ps :=
        fun he => hnreg ⟨rec, List.mem_append.mpr (Or.inr (by simp [he]))⟩
      have hnsq : ¬ SegPre qs ps := fun hs2 => hsp ⟨hs2, hnenew⟩
      have hnps : ¬ SegPre ps qs := by
        intro hs2
        obtain ⟨pr, hprin, hstr⟩ := hpre2
        exact (hnp pr hprin).2 (segPre_trans hs2 hstr.1)
      rw [FT qs hgqs ⟨hnps, hnsq⟩]
      exact hB qs hgqs hnreg2 hpre2
  · intro qs hgqs hnreg hnpre hnext
    have hnreg2 : ¬ Registered l qs :=
      fun hr => hnreg ⟨hr.choose, List.mem_append.mpr (Or.inl hr.choose_spec)⟩
    have hnpre2 : ¬ PreOfReg l qs := by
      rintro ⟨pr, hin, hs⟩
      exact hnpre ⟨pr, List.mem_append.mpr (Or.inl hin), hs⟩
    have hnext2 : ¬ ExtOfReg l qs := by
      rintro ⟨pr, hin, hs⟩
      exact hnext ⟨pr, List.mem_append.mpr (Or.inl hin), hs⟩
    have hnenew : qs ≠ ps :=
      fun he => hnreg ⟨rec, List.mem_append.mpr (Or.inr (by simp [he]))⟩
    have hnsq : ¬ SegPre qs ps := by
      intro hs2
      exact hnpre ⟨(ps, rec), List.mem_append.mpr (Or.inr (by simp)), hs2, hnenew⟩
    have hnps : ¬ SegPre ps qs := by
      intro hs2
      exact hnext ⟨(ps, rec), List.mem_append.mpr (Or.inr (by simp)), hs2, Ne.symm hnenew⟩
    rw [FT qs hgqs ⟨hnps, hnsq⟩]
    exact hC qs hgqs hnreg2 hnpre2 hnext2

/-- Writing an unrelated top-level key does not change descent. -/
theorem descend_setOwn_other (reg : JsFields) (k : Str) (v : JsValue) (q : Str)
    (qr : List Str) (h : q ≠ k) :
    descendOwn (vObj (setOwn reg k v)) (q :: qr) = descendOwn (vObj reg) (q :: qr) := by
  conv_lhs => rw [descendOwn, getOwn_setOwn_other reg k v q h]
  conv_rhs => rw [descendOwn]

/-- The dotted rendering is injective on well-formed paths. -/
theorem dotted_inj {ps qs : List Str} (hps : GoodPath ps) (hqs : GoodPath qs)
    (h : dotted ps = dotted qs) : ps = qs := by
  have h1 := splitDot_dotted ps hps.1 (fun k hk => (hps.2 k hk).2.1)
  have h2 := splitDot_dotted qs hqs.1 (fun k hk => (hqs.2 k hk).2.1)
  rw [← h1, ← h2, h]

/-- Registering one more leaf along a fresh, prefix-incomparable,
well-formed path preserves the representation invariant. -/
theorem strongInv_step (l : List (List Str × JsValue)) (reg : JsFields)
    (ps : List Str) (rec : JsValue)
    (hinv : StrongInv l reg) (hgps : GoodPath ps)
    (hgl : ∀ pr ∈ l, GoodPath pr.1) (hnp : ∀ pr ∈ l, NoPre pr.1 ps) :
    StrongInv (l ++ [(ps, rec)]) (registerLeaf reg (dotted ps) rec) := by
  have hnd : ∀ k ∈ ps, '.' ∉ k := fun k hk => (hgps.2 k hk).2.1
  have hsplit : splitDot (dotted ps) = ps := splitDot_dotted ps hgps.1 hnd
  rw [registerLeaf, hsplit]
  have hpsreg : ¬ Registered l ps := by
    rintro ⟨r, hr⟩
    exact (hnp (ps, r) hr).1 (segPre_refl ps)
  have hpspre : ¬ PreOfReg l ps := by
    rintro ⟨pr, hin, hs⟩
    exact (hnp pr hin).2 hs.1
  have hpsext : ¬ ExtOfReg l ps := by
    rintro ⟨pr, hin, hs⟩
    exact (hnp pr hin).1 hs.1
  have hslot0 : treeNode reg ps = none := hinv.2.2 ps hgps hpsreg hpspre hpsext
  have hchain0 : ∀ n, 0 < n → n < ps.length →
      treeNode reg (ps.take n) = none ∨
      ∃ gs, treeNode reg (ps.take n) = some (vObj gs) := by
    intro n hn1 hn2
    have hgq : GoodPath (ps.take n) := goodPath_take hgps n hn1
    have hlen : (ps.take n).length = n := by simp; omega
    have hne2 : ps.take n ≠ ps := by
      intro he
      have hle := congrArg List.length he
      rw [hlen] at hle
      omega
    have hstrict : StrictPre (ps.take n) ps := ⟨segPre_take ps n, hne2⟩
    have hnreg : ¬ Registered l (ps.take n) := by
      rintro ⟨r, hr⟩
      exact (hnp _ hr).1 hstrict.1
    by_cases hpre : PreOfReg l (ps.take n)
    · exact Or.inr (hinv.2.1 _ hgq hnreg hpre)
    · have hnext : ¬ ExtOfReg l (ps.take n) := by
        rintro ⟨pr, hin, hs⟩
        exact (hnp pr hin).1 (segPre_trans hs.1 (segPre_take ps n))
      exact Or.inl (hinv.2.2 _ hgq hnreg hpre hnext)
  obtain ⟨p, psrest, rfl⟩ : ∃ p w, ps = p :: w := by
    cases ps with
    | nil => exact absurd rfl hgps.1
    | cons p w => exact ⟨p, w, rfl⟩
  have hgsegp : GoodSeg p := hgps.2 p (List.mem_cons_self _ _)
  cases psrest with
  | nil =>
    -- single-segment path: flat key and hierarchical slot coincide
    have hd : dotted [p] = p := rfl
    rw [hd]
    have F1 : getOwn (hierInsert (setOwn reg p rec) [p] rec) p = some rec :=
      hierInsert_single_occupied _ p rec (getOwn_setOwn_self reg p rec)
    refine strongInv_assemble l reg _ [p] rec hgps hgl hnp
      ⟨hinv.1, hinv.2.1, hinv.2.2⟩ (hd ▸ F1) ?_ ?_ ?_ ?_
    · rw [treeNode, descendOwn_single]
      exact hd ▸ F1
    · intro n hn1 hn2
      simp at hn2
      omega
    · intro qs hgqs hnpq
      obtain ⟨q, qr, rfl⟩ : ∃ q qr, qs = q :: qr := by
        cases qs with
        | nil => exact absurd rfl hgqs.1
        | cons q qr => exact ⟨q, qr, rfl⟩
      have hqp : q ≠ p := by
        intro he
        exact hnpq.1 (by simp [SegPre, he])
      rw [treeNode, treeNode,
        hierInsert_descend_other [p] _ rec (q :: qr) (by simp) (by simp)
          (fun k hk => hgqs.2 k hk) hnpq,
        descend_setOwn_other reg p rec q qr hqp]
    · intro pr hin
      have hkey : dotted pr.1 ≠ p := by
        obtain ⟨k1, u, he1⟩ : ∃ k1 u, pr.1 = k1 :: u := by
          cases hh : pr.1 with
          | nil => exact absurd hh (hgl pr hin).1
          | cons k1 u => exact ⟨k1, u, rfl⟩
        cases u with
        | nil =>
          rw [he1]
          intro he2
          have : SegPre pr.1 [p] := by rw [he1, show dotted [k1] = k1 from rfl] at *
                                       simp [SegPre, he2]
          exact (hnp pr hin).1 this
        | cons k2 w =>
          rw [he1]
          intro he2
          have hdot : '.' ∈ dotted (k1 :: k2 :: w) := dot_mem_dotted k1 k2 w
          rw [he2] at hdot
          exact hgsegp.2.1 hdot
      rw [hierInsert_getOwn_other _ p [] rec _ hkey,
        getOwn_setOwn_other reg p rec _ hkey]
  | cons a b =>
    have hdot : '.' ∈ dotted (p :: a :: b) := dot_mem_dotted p a b
    have hdne : ∀ q : Str, '.' ∉ q → q ≠ dotted (p :: a :: b) := by
      intro q hq he
      rw [he] at hq
      exact hq hdot
    have hpd : p ≠ dotted (p :: a :: b) := hdne p hgsegp.2.1
    -- transfer of tree reads through the flat write
    have htrans : ∀ qs : List Str, qs ≠ [] → (∀ k ∈ qs, GoodSeg k) →
        descendOwn (vObj (setOwn reg (dotted (p :: a :: b)) rec)) qs
          = descendOwn (vObj reg) qs := by
      intro qs hne hgq
      obtain ⟨q, qr, rfl⟩ : ∃ q qr, qs = q :: qr := by
        cases qs with
        | nil => exact absurd rfl hne
        | cons q qr => exact ⟨q, qr, rfl⟩
      exact descend_setOwn_other reg _ rec q qr
        (hdne q (hgq q (List.mem_cons_self _ _)).2.1)
    have hest := hierInsert_establish (p :: a :: b)
      (setOwn reg (dotted (p :: a :: b)) rec) rec (by simp) hgps.2
      (by
        intro n hn1 hn2
        have hgq := goodPath_take hgps n hn1
        rw [htrans _ hgq.1 hgq.2]
        exact hchain0 n hn1 hn2)
      (by
        rw [htrans _ hgps.1 hgps.2]
        exact hslot0)
    obtain ⟨hmain, hpref⟩ := hest
    refine strongInv_assemble l reg _ (p :: a :: b) rec hgps hgl hnp
      ⟨hinv.1, hinv.2.1, hinv.2.2⟩ ?_ hmain ?_ ?_ ?_
    · rw [hierInsert_getOwn_other _ p (a :: b) rec _ (Ne.symm hpd),
        getOwn_setOwn_self]
    · intro n hn1 hn2
      exact hpref n hn1 hn2
    · intro qs hgqs hnpq
      obtain ⟨q, qr, rfl⟩ : ∃ q qr, qs = q :: qr := by
        cases qs with
        | nil => exact absurd rfl hgqs.1
        | cons q qr => exact ⟨q, qr, rfl⟩
      rw [treeNode, treeNode,
        hierInsert_descend_other (p :: a :: b) _ rec (q :: qr) (by simp) (by simp)
          (fun k hk => hgqs.2 k hk) hnpq,
        htrans (q :: qr) (by simp) (fun k hk => hgqs.2 k hk)]
    · intro pr hin
      have hkeyp : dotted pr.1 ≠ p := by
        obtain ⟨k1, u, he1⟩ : ∃ k1 u, pr.1 = k1 :: u := by
          cases hh : pr.1 with
          | nil => exact absurd hh (hgl pr hin).1
          | cons k1 u => exact ⟨k1, u, rfl⟩
        cases u with
        | nil =>
          rw [he1]
          intro he2
          have hsp : SegPre pr.1 (p :: a :: b) := by
            rw [he1]
            rw [show dotted [k1] = k1 from rfl] at he2
            simp [SegPre, he2]
          exact (hnp pr hin).1 hsp
        | cons k2 w =>
          rw [he1]
          intro he2
          have hdot2 : '.' ∈ dotted (k1 :: k2 :: w) := dot_mem_dotted k1 k2 w
          rw [he2] at hdot2
          exact hgsegp.2.1 hdot2
      have hkeyd : dotted pr.1 ≠ dotted (p :: a :: b) := by
        intro he
        have := dotted_inj (hgl pr hin) hgps he
        exact (hnp pr hin).1 (this ▸ segPre_refl pr.1)
      rw [hierInsert_getOwn_other _ p (a :: b) rec _ hkeyp,
        getOwn_setOwn_other reg _ rec _ hkeyd]

/-- The representation invariant holds for every registry built by a
pairwise prefix-incomparable sequence of well-formed leaf registrations. -/
theorem strongInv_regAll (l : List (List Str × JsValue))
    (hgl : ∀ pr ∈ l, GoodPath pr.1)
    (hpw : l.Pairwise (fun x y => NoPre x.1 y.1)) :
    StrongInv l (regAll l) := by
  induction l using List.reverseRecOn with
  | nil =>
    refine ⟨by simp, ?_, ?_⟩
    · rintro qs _ _ ⟨pr, hpr, _⟩
      simp at hpr
    · intro qs hgqs _ _ _
      obtain ⟨q, qr, rfl⟩ : ∃ q qr, qs = q :: qr := by
        cases qs with
        | nil => exact absurd rfl hgqs.1
        | cons q qr => exact ⟨q, qr, rfl⟩
      exact descendOwn_nil q qr
  | append_singleton done new ih =>
    have hgl2 : ∀ pr ∈ done, GoodPath pr.1 :=
      fun pr hp => hgl pr (List.mem_append.mpr (Or.inl hp))
    have hpw2 : done.Pairwise (fun x y => NoPre x.1 y.1) :=
      (List.pairwise_append.mp hpw).1
    have hnp2 : ∀ pr ∈ done, NoPre pr.1 new.1 := by
      intro pr hp
      exact (List.pairwise_append.mp hpw).2.2 pr hp new (List.mem_singleton_self _)
    have hreg : regAll (done ++ [new])
        = registerLeaf (regAll done) (dotted new.1) new.2 := by
      rw [regAll, List.foldl_append]
      rfl
    rw [hreg]
    have hstep := strongInv_step done (regAll done) new.1 new.2 (ih hgl2 hpw2)
      (hgl new (List.mem_append.mpr (Or.inr (List.mem_singleton_self _)))) hgl2 hnp2
    simpa using hstep

/-- The code's truthiness-guarded stepwise walk agrees with the raw own-
property descent once every node along the way is a plain group object with
well-formed keys. -/
theorem stepLookupV_of_groups :
    ∀ (qs : List Str) (v : JsValue),
      (∀ k ∈ qs, GoodSeg k) →
      (∀ n, 0 < n → n ≤ qs.length →
        ∃ gs, descendOwn v (qs.take n) = some (vObj gs)) →
      stepLookupV v qs = descendOwn v qs := by
  intro qs
  induction qs with
  | nil => intro v _ _; cases v <;> rfl
  | cons q qr ih =>
    intro v hgood hnodes
    obtain ⟨gs1, hg1⟩ := hnodes 1 (by omega) (by simp)
    obtain ⟨fs, rfl⟩ : ∃ fs, v = vObj fs := by
      cases v with
      | vObj fs => exact ⟨fs, rfl⟩
      | vStr s => rw [show descendOwn (vStr s) ((q :: qr).take 1) = none from rfl] at hg1
                  exact absurd hg1 (by simp)
      | vNum n => rw [show descendOwn (vNum n) ((q :: qr).take 1) = none from rfl] at hg1
                  exact absurd hg1 (by simp)
      | vBool b2 => rw [show descendOwn (vBool b2) ((q :: qr).take 1) = none from rfl] at hg1
                    exact absurd hg1 (by simp)
      | vNull => rw [show descendOwn vNull ((q :: qr).take 1) = none from rfl] at hg1
                 exact absurd hg1 (by simp)
      | vArr => rw [show descendOwn vArr ((q :: qr).take 1) = none from rfl] at hg1
                exact absurd hg1 (by simp)
      | vFun f => rw [show descendOwn (vFun f) ((q :: qr).take 1) = none from rfl] at hg1
                  exact absurd hg1 (by simp)
    have hgq : getOwn fs q = some (vObj gs1) := by
      rw [show (q :: qr).take 1 = [q] from rfl, descendOwn_single] at hg1
      exact hg1
    have hihyp : ∀ n, 0 < n → n ≤ qr.length →
        ∃ gs, descendOwn (vObj gs1) (qr.take n) = some (vObj gs) := by
      intro n hn1 hn2
      have h2 := hnodes (n + 1) (by omega) (by simp; omega)
      rw [List.take_succ_cons] at h2
      have hd : descendOwn (vObj fs) (q :: qr.take n)
          = descendOwn (vObj gs1) (qr.take n) := by
        rw [descendOwn, hgq]
      rw [hd] at h2
      exact h2
    have hstep : stepLookupV (vObj fs) (q :: qr) = stepLookupV (vObj gs1) qr := by
      rw [stepLookupV, getProp, hgq]
      rfl
    have hdesc : descendOwn (vObj fs) (q :: qr) = descendOwn (vObj gs1) qr := by
      rw [descendOwn, hgq]
    rw [hstep, hdesc]
    exact ih (vObj gs1) (fun k hk => hgood k (List.mem_cons_of_mem _ hk)) hihyp

/-- Claim C4 (amended): for every registry reachable by registering a list
of leaf tokens whose paths are pairwise prefix-incomparable (in particular,
no dotted path is registered twice) and made of well-formed segments
(non-empty, dot-free, not `Object.prototype` member names), the flat lookup
and the stepwise lookup agree on every registered path: both find exactly
the registered record.  The counterexample shows the two views diverge as
soon as a path is registered twice with conflicting definitions. -/
theorem registryViewsAgreeWithoutDuplicates
    (l : List (List Str × JsValue))
    (hgl : ∀ pr ∈ l, GoodPath pr.1)
    (hpw : l.Pairwise (fun x y => NoPre x.1 y.1))
    (hrec : ∀ pr ∈ l, isObjV pr.2 = true) :
    ∀ pr ∈ l, flatLookup (regAll l) (dotted pr.1) = some pr.2 ∧
      stepLookup (regAll l) pr.1 = some pr.2 := by
  have hinv := strongInv_regAll l hgl hpw
  intro pr hin
  obtain ⟨hflat, htree⟩ := hinv.1 pr hin
  have hsymm : ∀ a b, a ∈ l → b ∈ l → a ≠ b → NoPre a.1 b.1 := by
    intro a b ha hb hne
    exact List.Pairwise.forall (fun x y h => noPre_symm h) hpw ha hb hne
  refine ⟨?_, ?_⟩
  · rw [flatLookup, getProp, hflat]
  · have hgps := hgl pr hin
    have hnodes : ∀ n, 0 < n → n ≤ pr.1.length →
        ∃ gs, descendOwn (vObj (regAll l)) (pr.1.take n) = some (vObj gs) := by
      intro n hn1 hn2
      by_cases hlast : n = pr.1.length
      · subst hlast
        rw [List.take_length]
        obtain ⟨gs, hgs⟩ : ∃ gs, pr.2 = vObj gs := by
          have hh := hrec pr hin
          cases hp2 : pr.2 <;> rw [hp2] at hh <;> first
            | exact ⟨_, rfl⟩
            | simp [isObjV] at hh
        exact ⟨gs, by rw [← treeNode, htree, hgs]⟩
      · have hlt : n < pr.1.length := Nat.lt_of_le_of_ne hn2 hlast
        have hgq : GoodPath (pr.1.take n) := goodPath_take hgps n hn1
        have hlen : (pr.1.take n).length = n := by simp; omega
        have hne2 : pr.1.take n ≠ pr.1 := by
          intro he
          have hle := congrArg List.length he
          rw [hlen] at hle
          omega
        have hstrict : StrictPre (pr.1.take n) pr.1 := ⟨segPre_take pr.1 n, hne2⟩
        have hnreg : ¬ Registered l (pr.1.take n) := by
          rintro ⟨r, hr⟩
          by_cases hsame : (pr.1.take n, r) = pr
          · exact hne2 (congrArg Prod.fst hsame)
          · exact (hsymm _ pr hr hin hsame).1 hstrict.1
        have hgroup := hinv.2.1 (pr.1.take n) hgq hnreg ⟨pr, hin, hstrict⟩
        obtain ⟨gs, hgs⟩ := hgroup
        exact ⟨gs, by rw [← treeNode]; exact hgs⟩
    rw [stepLookup, stepLookupV_of_groups pr.1 (vObj (regAll l)) hgps.2 hnodes,
      ← treeNode, htree]

/-- Claim C4 (amended) witness: two well-formed, prefix-incomparable
registrations (`a.b` and `c`); both views find the registered record at
`a.b`. -/
theorem registryViewsAgreeWithoutDuplicatesWitness :
    (∀ pr ∈ regListW, GoodPath pr.1) ∧
    regListW.Pairwise (fun x y => NoPre x.1 y.1) ∧
    (∀ pr ∈ regListW, isObjV pr.2 = true) ∧
    (flatLookup (regAll regListW) (dotted [("a".toList), ("b".toList)])
        = some (mkTok ("red".toList) ("color".toList)) ∧
      stepLookup (regAll regListW) [("a".toList), ("b".toList)]
        = some (mkTok ("red".toList) ("color".toList))) :=
  ⟨by decide, by decide, by decide,
   registryViewsAgreeWithoutDuplicates regListW (by decide) (by decide) (by decide)
     ([("a".toList), ("b".toList)], mkTok ("red".toList) ("color".toList))
     (List.mem_cons_self _ _)⟩
